import Mathlib

/-!
Verification of the parallel-summation benchmark (`src/main.cpp`).

The development shallowly embeds the C++ program:
* machine `int` arithmetic is modelled as `Int` with an explicit wrap to
  the signed 32-bit range (`wrap32`, `add32`);
* the per-range summation loops of `locked_sum`, `unlocked_sum` and
  `reduce_sum` become folds over `List.range'`;
* the range-partitioning done in `main` (`block = array_size / n_threads`,
  `start = t * block`, `end = (t == n-1) ? array_size : (t+1) * block`)
  becomes `blockOf`, `startIdx`, `endIdx`;
* the `ThreadPool` (task queue, worker loop, destructor) becomes a labelled
  transition system `PoolStep` over `PoolState`;
* the CLI validation at the top of `main` and the CSV-row emission loop
  become `cliParse` and `csvRows`.
-/

/-! ## Signed 32-bit integer arithmetic -/

/-- The modulus of 32-bit machine integers. -/
def int32Mod : Int := 2 ^ 32

/-- Half the modulus: the magnitude of the smallest signed 32-bit value. -/
def int32Half : Int := 2 ^ 31

/-- Wrap an unbounded integer into the signed 32-bit range
`[-2^31, 2^31)`, the value a C++ `int` holds after wraparound. -/
def wrap32 (x : Int) : Int := (x + int32Half) % int32Mod - int32Half

/-- C++ `int` addition: exact addition followed by 32-bit wraparound. -/
def add32 (a b : Int) : Int := wrap32 (a + b)

theorem wrap32_emod (x : Int) :
    wrap32 x = (x + int32Half) % int32Mod - int32Half := rfl

theorem wrap32_add_left (x y : Int) : wrap32 (wrap32 x + y) = wrap32 (x + y) := by
  unfold wrap32
  have h1 : (x + int32Half) % int32Mod - int32Half + y + int32Half
      = (x + int32Half) % int32Mod + y := by ring
  rw [h1, Int.emod_add_emod]
  have h2 : x + int32Half + y = x + y + int32Half := by ring
  rw [h2]

theorem wrap32_zero : wrap32 0 = 0 := by decide

/-- Folding `add32` from a wrapped accumulator computes the wrap of the
exact sum. -/
theorem foldl_add32_eq_wrap32 (l : List Int) (a : Int) :
    l.foldl add32 (wrap32 a) = wrap32 (a + l.sum) := by
  induction l generalizing a with
  | nil => simp
  | cons x xs ih =>
      simp only [List.foldl_cons, List.sum_cons]
      have h1 : add32 (wrap32 a) x = wrap32 (a + x) := wrap32_add_left a x
      rw [h1, ih, add_assoc]

theorem foldl_add32_zero (l : List Int) : l.foldl add32 0 = wrap32 l.sum := by
  have h := foldl_add32_eq_wrap32 l 0
  rwa [wrap32_zero, zero_add] at h

/-! ## Array access and the per-range summation loop

Each strategy's worker body is the loop
`int sum = 0; for (int i = start; i < end; ++i) sum += arr[i];`
(`src/main.cpp` lines 93-117).  The array is modelled as a `List Int`,
element access as `List.getD` (ranges stay in bounds in every use). -/

/-- `arr[i]` for the shared read-only array. -/
def arrGet (arr : List Int) (i : Nat) : Int := arr.getD i 0

/-- The summation loop `for (i = s; i < e; ++i) sum += arr[i]` starting
from local `sum = 0`, with `int` (wraparound) addition. -/
def sumRange (arr : List Int) (s e : Nat) : Int :=
  (List.range' s (e - s)).foldl (fun acc i => add32 acc (arrGet arr i)) 0

/-- The exact (unwrapped) sum of `arr[s..e)`, used to reason about
`sumRange`. -/
def exactRange (arr : List Int) (s e : Nat) : Int :=
  ((List.range' s (e - s)).map (arrGet arr)).sum

theorem sumRange_eq_wrap (arr : List Int) (s e : Nat) :
    sumRange arr s e = wrap32 (exactRange arr s e) := by
  unfold sumRange exactRange
  rw [← List.foldl_map (arrGet arr) add32]
  exact foldl_add32_zero _

/-- `std::accumulate(arr.begin(), arr.end(), 0)`: sequential left-to-right
accumulation with initial value `0` and `int` addition. -/
def stdAccumulate (arr : List Int) : Int := arr.foldl add32 0

theorem map_arrGet_range (arr : List Int) :
    (List.range arr.length).map (arrGet arr) = arr := by
  apply List.ext_getElem
  · simp
  · intro n h1 h2
    simp [arrGet, List.getD_eq_getElem?_getD, List.getElem?_eq_getElem h2]

theorem stdAccumulate_eq_sumRange (arr : List Int) :
    stdAccumulate arr = sumRange arr 0 arr.length := by
  rw [sumRange_eq_wrap]
  unfold stdAccumulate exactRange
  rw [foldl_add32_zero]
  congr 1
  rw [Nat.sub_zero, ← List.range_eq_range', map_arrGet_range]

/-! ## The partition plan

`main` computes, for `n_threads = N` and `array_size = L`
(`src/main.cpp` lines 273-277):
`block = L / N`, `start_index = t * block`,
`end_index = (t == N-1) ? L : (t+1) * block`. -/

/-- `int block = array_size / n_threads;` (integer division). -/
def blockOf (L N : Nat) : Nat := L / N

/-- `int start_index = t * block;` -/
def startIdx (L N t : Nat) : Nat := t * blockOf L N

/-- `int end_index = (t == n_threads - 1) ? array_size : (t + 1) * block;` -/
def endIdx (L N t : Nat) : Nat :=
  if t = N - 1 then L else (t + 1) * blockOf L N

/-- The partition plan: the list of half-open ranges assigned to workers
`0, …, N-1`. -/
def partitionPlan (L N : Nat) : List (Nat × Nat) :=
  (List.range N).map (fun t => (startIdx L N t, endIdx L N t))

theorem startIdx_le_endIdx (L N t : Nat) :
    startIdx L N t ≤ endIdx L N t := by
  unfold startIdx endIdx
  by_cases h : t = N - 1
  · simp only [h, if_pos rfl]
    have h1 : (N - 1) * blockOf L N ≤ N * blockOf L N :=
      Nat.mul_le_mul_right _ (Nat.sub_le N 1)
    have h2 : N * blockOf L N ≤ L := by
      unfold blockOf
      rw [Nat.mul_comm]
      exact Nat.div_mul_le_self L N
    exact h1.trans h2
  · simp only [if_neg h]
    exact Nat.mul_le_mul_right _ (Nat.le_succ t)

theorem endIdx_eq_startIdx_succ (L N t : Nat) (ht : t < N - 1) :
    endIdx L N t = startIdx L N (t + 1) := by
  unfold endIdx startIdx
  rw [if_neg (Nat.ne_of_lt ht)]

theorem endIdx_last (L N : Nat) : endIdx L N (N - 1) = L := by
  unfold endIdx; rw [if_pos rfl]

/-! ## Partition coverage: the ranges tile `[0, L)` exactly -/

/-- The index ranges of the partition plan, as explicit lists of indices:
worker `t` owns the indices `List.range' (startIdx L N t) (endIdx L N t - startIdx L N t)`. -/
def planIndexLists (L N : Nat) : List (List Nat) :=
  (List.range N).map
    (fun t => List.range' (startIdx L N t) (endIdx L N t - startIdx L N t))

theorem endIdx_sub_startIdx (L N t : Nat) (ht : t < N - 1) :
    endIdx L N t - startIdx L N t = blockOf L N := by
  unfold endIdx startIdx
  rw [if_neg (Nat.ne_of_lt ht), Nat.succ_mul, Nat.add_sub_cancel_left]

theorem planIndexLists_prefix (L N n : Nat) (hn : n ≤ N - 1) (hnN : n ≤ N) :
    ((List.range n).map
        (fun t => List.range' (startIdx L N t) (endIdx L N t - startIdx L N t))).flatten
      = List.range' 0 (n * blockOf L N) := by
  induction n with
  | zero => simp
  | succ m ih =>
      have hm1 : m < N - 1 := Nat.lt_of_succ_le hn
      have hm2 : m ≤ N - 1 := Nat.le_of_lt hm1
      have hm3 : m ≤ N := Nat.le_of_succ_le hnN
      rw [List.range_succ, List.map_append, List.flatten_append, ih hm2 hm3]
      simp only [List.map_cons, List.map_nil, List.flatten_cons, List.flatten_nil,
        List.append_nil]
      rw [endIdx_sub_startIdx L N m hm1]
      have hs : startIdx L N m = m * blockOf L N := rfl
      rw [hs]
      have := List.range'_append_1 0 (m * blockOf L N) (blockOf L N)
      rw [Nat.zero_add] at this
      rw [this, Nat.add_comm (blockOf L N), ← Nat.succ_mul]

theorem planIndexLists_flatten (L N : Nat) (hN : 1 ≤ N) :
    (planIndexLists L N).flatten = List.range L := by
  unfold planIndexLists
  have hNsub : N - 1 + 1 = N := Nat.succ_pred_eq_of_pos hN
  have hr : List.range N = List.range (N - 1) ++ [N - 1] := by
    conv_lhs => rw [← hNsub]
    rw [List.range_succ]
  rw [hr, List.map_append, List.flatten_append,
    planIndexLists_prefix L N (N - 1) (Nat.le_refl _) (Nat.sub_le N 1)]
  simp only [List.map_cons, List.map_nil, List.flatten_cons, List.flatten_nil,
    List.append_nil]
  rw [endIdx_last]
  have hs : startIdx L N (N - 1) = (N - 1) * blockOf L N := rfl
  rw [hs]
  have hle : (N - 1) * blockOf L N ≤ L := by
    have h1 : (N - 1) * blockOf L N ≤ N * blockOf L N :=
      Nat.mul_le_mul_right _ (Nat.sub_le N 1)
    have h2 : N * blockOf L N ≤ L := by
      unfold blockOf; rw [Nat.mul_comm]; exact Nat.div_mul_le_self L N
    exact h1.trans h2
  have := List.range'_append_1 0 ((N - 1) * blockOf L N) (L - (N - 1) * blockOf L N)
  rw [Nat.zero_add] at this
  rw [this, Nat.sub_add_cancel hle, List.range_eq_range']

/-- Two ranges of the plan, as index intervals, share no index. -/
def rangesDisjoint (r s : Nat × Nat) : Prop :=
  ∀ k : Nat, r.1 ≤ k → k < r.2 → ¬(s.1 ≤ k ∧ k < s.2)

theorem partitionPlan_pairwise_disjoint (L N : Nat) :
    (partitionPlan L N).Pairwise rangesDisjoint := by
  unfold partitionPlan
  rw [List.pairwise_map]
  have hlt := List.pairwise_lt_range N
  refine hlt.imp_of_mem ?_
  intro i j hi hj hij
  have hjN : j < N := List.mem_range.mp hj
  have hiN1 : i < N - 1 := by omega
  intro k hk1 hk2 hk3
  have hEi : endIdx L N i = (i + 1) * blockOf L N := by
    unfold endIdx; rw [if_neg (Nat.ne_of_lt hiN1)]
  have hSj : startIdx L N j = j * blockOf L N := rfl
  have hle : endIdx L N i ≤ startIdx L N j := by
    rw [hEi, hSj]
    exact Nat.mul_le_mul_right _ (Nat.succ_le_of_lt hij)
  omega

/-! ## The pool-based strategies

`locked_sum` (lines 93-99): each worker computes its local range sum, then
performs one atomic `total += sum`.  The atomic additions of the `N`
workers hit the accumulator in an arbitrary completion order, modelled as
a permutation `order` of `List.range N`.

`reduce_sum` (lines 111-117): worker `t` stores its local range sum into
the worker-exclusive slot `partial_sums[t]`; afterwards `main` merges the
slots sequentially with `std::accumulate` (line 307). -/

/-- Worker `t`'s local range sum over its assigned partition range. -/
def localSum (arr : List Int) (N t : Nat) : Int :=
  sumRange arr (startIdx arr.length N t) (endIdx arr.length N t)

/-- Final value of the atomic accumulator of the Locked strategy when the
workers' single atomic additions land in completion order `order`. -/
def lockedTotal (arr : List Int) (N : Nat) (order : List Nat) : Int :=
  order.foldl (fun total t => add32 total (localSum arr N t)) 0

/-- The `partial_sums` vector filled by the Reduce strategy's workers. -/
def reducePartials (arr : List Int) (N : Nat) : List Int :=
  (List.range N).map (localSum arr N)

/-- Final result of the Reduce strategy:
`std::accumulate(partial_sums.begin(), partial_sums.end(), 0)`. -/
def reduceTotal (arr : List Int) (N : Nat) : Int :=
  stdAccumulate (reducePartials arr N)

theorem emod_wrap32 (x : Int) : wrap32 x % int32Mod = x % int32Mod := by
  unfold wrap32
  rw [Int.sub_emod, Int.emod_emod_of_dvd _ (dvd_refl _), ← Int.sub_emod,
    add_sub_cancel_right]

theorem wrap32_congr {x y : Int} (h : x % int32Mod = y % int32Mod) :
    wrap32 x = wrap32 y := by
  unfold wrap32
  rw [Int.add_emod, h, ← Int.add_emod]

theorem wrap32_sum_map (l : List Int) :
    wrap32 (l.map wrap32).sum = wrap32 l.sum := by
  induction l with
  | nil => rfl
  | cons x xs ih =>
      simp only [List.map_cons, List.sum_cons]
      apply wrap32_congr
      have h2 : (xs.map wrap32).sum % int32Mod = xs.sum % int32Mod := by
        have h3 := congrArg (· % int32Mod) ih
        simpa [emod_wrap32] using h3
      rw [Int.add_emod, emod_wrap32, h2, ← Int.add_emod]

theorem exactRange_partition (arr : List Int) (N : Nat) (hN : 1 ≤ N) :
    ((List.range N).map
        (fun t => exactRange arr (startIdx arr.length N t) (endIdx arr.length N t))).sum
      = exactRange arr 0 arr.length := by
  have key : ∀ t : Nat, exactRange arr (startIdx arr.length N t) (endIdx arr.length N t)
      = ((List.range' (startIdx arr.length N t)
            (endIdx arr.length N t - startIdx arr.length N t)).map (arrGet arr)).sum := by
    intro t; rfl
  calc ((List.range N).map
        (fun t => exactRange arr (startIdx arr.length N t) (endIdx arr.length N t))).sum
      = (((planIndexLists arr.length N).map (fun l => l.map (arrGet arr))).map List.sum).sum := by
        unfold planIndexLists
        rw [List.map_map, List.map_map]
        rfl
    _ = ((planIndexLists arr.length N).flatten.map (arrGet arr)).sum := by
        rw [List.map_flatten, List.sum_flatten]
    _ = exactRange arr 0 arr.length := by
        rw [planIndexLists_flatten _ _ hN]
        unfold exactRange
        rw [Nat.sub_zero, ← List.range_eq_range']

theorem lockedTotal_eq_stdAccumulate (arr : List Int) (N : Nat) (order : List Nat)
    (hN : 1 ≤ N) (hperm : order.Perm (List.range N)) :
    lockedTotal arr N order = stdAccumulate arr := by
  unfold lockedTotal
  rw [← List.foldl_map (localSum arr N) add32, foldl_add32_zero]
  have hp : (order.map (localSum arr N)).sum = ((List.range N).map (localSum arr N)).sum :=
    (hperm.map (localSum arr N)).sum_eq
  rw [hp]
  have hloc : (List.range N).map (localSum arr N)
      = ((List.range N).map
          (fun t => exactRange arr (startIdx arr.length N t) (endIdx arr.length N t))).map
          wrap32 := by
    rw [List.map_map]
    apply List.map_congr_left
    intro t _
    exact sumRange_eq_wrap arr _ _
  rw [hloc, wrap32_sum_map, exactRange_partition arr N hN]
  rw [stdAccumulate_eq_sumRange, sumRange_eq_wrap]

theorem reduceTotal_eq_stdAccumulate (arr : List Int) (N : Nat) (hN : 1 ≤ N) :
    reduceTotal arr N = stdAccumulate arr := by
  have h : reduceTotal arr N = lockedTotal arr N (List.range N) := by
    unfold reduceTotal stdAccumulate reducePartials lockedTotal
    rw [List.foldl_map]
  rw [h]
  exact lockedTotal_eq_stdAccumulate arr N (List.range N) hN (List.Perm.refl _)

/-! ## Claim theorems: strategies and partitioning -/

/-- C1: For every array contents and every worker count `N` with
`1 ≤ N ≤ L` (`L` the array length), the Locked strategy (per-range local
sums merged by atomic fetch-and-add, landing in an arbitrary completion
order) and the Reduce strategy (per-range partial sums written to
worker-exclusive slots, then sequentially accumulated) each compute a
total equal to the sequential sum of the whole array. -/
theorem locked_and_reduce_compute_sequential_sum
    (arr : List Int) (N : Nat) (order : List Nat)
    (hN : 1 ≤ N) (hNL : N ≤ arr.length) (horder : order.Perm (List.range N)) :
    lockedTotal arr N order = stdAccumulate arr ∧
    reduceTotal arr N = stdAccumulate arr :=
  ⟨lockedTotal_eq_stdAccumulate arr N order hN horder,
   reduceTotal_eq_stdAccumulate arr N hN⟩

theorem locked_and_reduce_compute_sequential_sum_witness :
    1 ≤ 4 ∧ 4 ≤ ([1, 2, 3, 4, 5, 6, 7, 8] : List Int).length ∧
    ([2, 0, 3, 1] : List Nat).Perm (List.range 4) ∧
    lockedTotal [1, 2, 3, 4, 5, 6, 7, 8] 4 [2, 0, 3, 1]
      = stdAccumulate [1, 2, 3, 4, 5, 6, 7, 8] ∧
    reduceTotal [1, 2, 3, 4, 5, 6, 7, 8] 4
      = stdAccumulate [1, 2, 3, 4, 5, 6, 7, 8] := by
  refine ⟨by decide, by decide, by decide, ?_, ?_⟩
  · exact (locked_and_reduce_compute_sequential_sum [1, 2, 3, 4, 5, 6, 7, 8] 4
      [2, 0, 3, 1] (by decide) (by decide) (by decide)).1
  · exact (locked_and_reduce_compute_sequential_sum [1, 2, 3, 4, 5, 6, 7, 8] 4
      [2, 0, 3, 1] (by decide) (by decide) (by decide)).2

/-- C2: For every array length `L ≥ 1` and worker count `N` with
`1 ≤ N ≤ L`, the partition plan assigns worker `i < N-1` the range
`[i*(L/N), (i+1)*(L/N))` and the last worker `[(N-1)*(L/N), L)`; the
ranges are contiguous, pairwise non-overlapping, their union (in index
order) is exactly `[0, L)`, and the last range's end equals `L`. -/
theorem partitionPlan_covers (L N : Nat) (h1 : 1 ≤ N) (h2 : N ≤ L) :
    (∀ t, t < N - 1 →
        startIdx L N t = t * (L / N) ∧ endIdx L N t = (t + 1) * (L / N)) ∧
    startIdx L N (N - 1) = (N - 1) * (L / N) ∧
    endIdx L N (N - 1) = L ∧
    (∀ t, t < N - 1 → endIdx L N t = startIdx L N (t + 1)) ∧
    (partitionPlan L N).Pairwise rangesDisjoint ∧
    (planIndexLists L N).flatten = List.range L := by
  refine ⟨?_, rfl, endIdx_last L N, ?_, partitionPlan_pairwise_disjoint L N,
    planIndexLists_flatten L N h1⟩
  · intro t ht
    constructor
    · rfl
    · unfold endIdx
      rw [if_neg (Nat.ne_of_lt ht)]
      rfl
  · intro t ht
    exact endIdx_eq_startIdx_succ L N t ht

theorem partitionPlan_covers_witness :
    1 ≤ 4 ∧ 4 ≤ 8 ∧
    ((∀ t, t < 4 - 1 →
        startIdx 8 4 t = t * (8 / 4) ∧ endIdx 8 4 t = (t + 1) * (8 / 4)) ∧
    startIdx 8 4 (4 - 1) = (4 - 1) * (8 / 4) ∧
    endIdx 8 4 (4 - 1) = 8 ∧
    (∀ t, t < 4 - 1 → endIdx 8 4 t = startIdx 8 4 (t + 1)) ∧
    (partitionPlan 8 4).Pairwise rangesDisjoint ∧
    (planIndexLists 8 4).flatten = List.range 8) :=
  ⟨by decide, by decide, partitionPlan_covers 8 4 (by decide) (by decide)⟩

/-- C7: For `L = 1` and `N = 4`, the partition plan yields exactly one
non-empty range and three empty ranges (the pinned edge-case policy when
`N` exceeds `L`; `N` is not clamped to `L`). -/
theorem partitionPlan_L1_N4_edge_case :
    partitionPlan 1 4 = [(0, 0), (0, 0), (0, 0), (0, 1)] ∧
    ((partitionPlan 1 4).filter (fun r => decide (r.1 < r.2))).length = 1 ∧
    ((partitionPlan 1 4).filter (fun r => decide (r.2 ≤ r.1))).length = 3 := by
  decide

/-! ## The library-parallel strategy (`parallel_sum`, lines 120-127)

`std::reduce(std::execution::par, arr.begin(), arr.end(), 0)` computes a
generalized sum: the initial value `0` and the array elements are combined
by `int` addition in an arbitrary grouping and order, modelled as an
arbitrary binary reduction tree whose leaves are a permutation of
`0 :: arr`.  Without `__cpp_lib_execution` the function falls back to
`std::accumulate(arr.begin(), arr.end(), 0)`. -/

inductive SumTree where
  | leaf (v : Int)
  | node (l r : SumTree)
deriving DecidableEq

def SumTree.eval : SumTree → Int
  | .leaf v => v
  | .node l r => add32 l.eval r.eval

def SumTree.leaves : SumTree → List Int
  | .leaf v => [v]
  | .node l r => l.leaves ++ r.leaves

/-- The `std::reduce(std::execution::par, …, 0)` branch of `parallel_sum`:
the value of one possible reduction tree. -/
def parallel_sum_reduce (t : SumTree) : Int := t.eval

/-- The `#else` branch of `parallel_sum`:
`std::accumulate(arr.begin(), arr.end(), 0)`. -/
def parallel_sum_fallback (arr : List Int) : Int := arr.foldl add32 0

/-- Modelled from the spec's words for the refinement comparison:
"the sequential left-to-right accumulation of the array with initial
value 0" (with `int` wraparound addition). -/
def seqLeftAccum (arr : List Int) : Int := arr.foldl add32 0

theorem SumTree.eval_emod (t : SumTree) :
    t.eval % int32Mod = t.leaves.sum % int32Mod := by
  induction t with
  | leaf v => simp [SumTree.eval, SumTree.leaves]
  | node l r ihl ihr =>
      simp only [SumTree.eval, SumTree.leaves, add32, List.sum_append]
      rw [emod_wrap32, Int.add_emod, ihl, ihr, ← Int.add_emod]

/-! ## The Unlocked strategy's racy merge (`unlocked_sum`, lines 102-108)

Each worker computes its local range sum without synchronization, then
performs `total += sum` on a plain shared `int`: a read of `total`
followed by a write of `read value + local sum`, with no atomicity.  The
interleaving of these accesses is modelled by a schedule: a list of
worker indices, where a worker's first scheduled turn performs its read
and its second turn performs its write. -/

structure RaceState where
  total : Int
  regs : List (Option Int)
  written : List Bool
deriving DecidableEq

/-- One scheduled turn of worker `t` in the unsynchronized merge. -/
def raceStep (partials : List Int) (s : RaceState) (t : Nat) : RaceState :=
  match s.regs.getD t none with
  | none => { s with regs := s.regs.set t (some s.total) }
  | some v =>
      if s.written.getD t true then s
      else { s with total := add32 v (partials.getD t 0),
                    written := s.written.set t true }

/-- Run the racy merge of the workers' local sums under `sched`. -/
def runRace (partials : List Int) (sched : List Nat) : RaceState :=
  sched.foldl (raceStep partials)
    ⟨0, List.replicate partials.length none, List.replicate partials.length false⟩

/-- Final value of the plain shared `total` of the Unlocked strategy under
interleaving `sched` of the workers' read and write accesses. -/
def unlockedFinal (arr : List Int) (N : Nat) (sched : List Nat) : Int :=
  (runRace ((List.range N).map (localSum arr N)) sched).total

/-- All workers completed their `total += sum` under `sched`. -/
def raceComplete (arr : List Int) (N : Nat) (sched : List Nat) : Bool :=
  ((runRace ((List.range N).map (localSum arr N)) sched).written).all (· = true)

/-- A high-contention input: a 200-element array. -/
def raceArr : List Int := (List.range 200).map (fun i => ((i : Int) % 100))

set_option maxRecDepth 10000

/-- C8: the Unlocked strategy's final merge into a plain non-atomic shared
integer is a data race whose result is schedule-dependent: with `N = 4`
workers on a high-contention array, the fully-serialized interleaving
yields the true sequential sum, while an interleaving in which worker 1
reads `total` before worker 0 writes it loses an update and yields a
different value, diverging from the true sum.  Both schedules run every
worker's read-modify-write to completion. -/
theorem unlocked_race_schedule_dependent :
    raceComplete raceArr 4 [0, 0, 1, 1, 2, 2, 3, 3] = true ∧
    raceComplete raceArr 4 [0, 1, 0, 1, 2, 2, 3, 3] = true ∧
    unlockedFinal raceArr 4 [0, 0, 1, 1, 2, 2, 3, 3] = stdAccumulate raceArr ∧
    unlockedFinal raceArr 4 [0, 1, 0, 1, 2, 2, 3, 3] ≠ stdAccumulate raceArr ∧
    unlockedFinal raceArr 4 [0, 1, 0, 1, 2, 2, 3, 3]
      ≠ unlockedFinal raceArr 4 [0, 0, 1, 1, 2, 2, 3, 3] := by
  decide

/-- C9: `parallel_sum` returns the value of the sequential left-to-right
accumulation with initial value `0` (exactly, with `int` wraparound) in
both branches: the `std::reduce(par, …, 0)` branch for every reduction
tree whose leaves are a permutation of `0 ::` the array, and the
`std::accumulate` fallback branch. -/
theorem parallel_sum_refines_sequential (arr : List Int) (t : SumTree)
    (hleaves : t.leaves.Perm ((0 : Int) :: arr)) :
    parallel_sum_reduce t = seqLeftAccum arr ∧
    parallel_sum_fallback arr = seqLeftAccum arr := by
  constructor
  · have hsum : t.leaves.sum = arr.sum := by
      rw [hleaves.sum_eq]
      simp
    unfold parallel_sum_reduce seqLeftAccum
    rw [foldl_add32_zero]
    cases t with
    | leaf v =>
        have hlen : (1 : Nat) = arr.length + 1 := by
          simpa [SumTree.leaves] using hleaves.length_eq
        have harr : arr = [] := List.length_eq_zero.mp (by omega)
        subst harr
        have hv : v = 0 := by
          have h1 : v ∈ ([(0 : Int)] : List Int) :=
            hleaves.subset (by simp [SumTree.leaves])
          simpa using h1
        subst hv
        simp [SumTree.eval, wrap32_zero]
    | node l r =>
        have heq : (SumTree.node l r).eval
            = wrap32 (l.leaves.sum + r.leaves.sum) := by
          simp only [SumTree.eval, add32]
          apply wrap32_congr
          rw [Int.add_emod, SumTree.eval_emod l, SumTree.eval_emod r,
            ← Int.add_emod]
        have h2 : l.leaves.sum + r.leaves.sum = arr.sum := by
          simpa [SumTree.leaves, List.sum_append] using hsum
        rw [heq, h2]
  · rfl

theorem parallel_sum_refines_sequential_witness :
    (SumTree.node (SumTree.node (SumTree.leaf 0) (SumTree.leaf 7))
        (SumTree.leaf 5)).leaves.Perm ((0 : Int) :: [5, 7]) ∧
    parallel_sum_reduce
        (SumTree.node (SumTree.node (SumTree.leaf 0) (SumTree.leaf 7))
          (SumTree.leaf 5))
      = seqLeftAccum [5, 7] ∧
    parallel_sum_fallback [5, 7] = seqLeftAccum [5, 7] := by
  refine ⟨by decide, ?_, ?_⟩
  · exact (parallel_sum_refines_sequential [5, 7]
      (SumTree.node (SumTree.node (SumTree.leaf 0) (SumTree.leaf 7))
        (SumTree.leaf 5)) (by decide)).1
  · exact (parallel_sum_refines_sequential [5, 7]
      (SumTree.node (SumTree.node (SumTree.leaf 0) (SumTree.leaf 7))
        (SumTree.leaf 5)) (by decide)).2

/-! ## The thread pool (`ThreadPool`, lines 25-87)

A labelled transition system over the pool's shared state.  WorkItems are
numbered in submission order; the deterministic outcome of item `id`'s
bound callable (its value, or the failure it raises) is the parameter
`pl id`, modelled as `Except` — a `packaged_task` stores either the result
or the captured exception in the shared state of its future.

* `submit` (lines 50-67): appends the item at the tail of `tasks` under
  the queue lock and calls `condition.notify_one()` once (counted by
  `notified`).  The code does not check `stop`, so submission is possible
  in any state; the ghost field `preStop` records which items had been
  submitted when shutdown began.
* `execute` (lines 32-45): an active worker pops the head of the queue
  and runs it to completion; running the `packaged_task` stores the
  item's outcome in its future and never throws into the worker loop.
* `setStop` (lines 71-75): the destructor sets `stop` under the lock and
  wakes all workers.
* `exitWorker` (line 38): a worker returns from its loop only when
  `stop` is set and the queue is empty; `join` in the destructor returns
  once every worker has done so (`active = 0`). -/

structure PoolState where
  queue : List Nat
  stopped : Bool
  active : Nat
  submitted : List Nat
  executed : List Nat
  preStop : List Nat
  notified : Nat
  handles : Nat → Option (Except String Int)

inductive PoolStep (n : Nat) (pl : Nat → Except String Int) :
    PoolState → PoolState → Prop
  | submit (s : PoolState) :
      PoolStep n pl s
        { s with queue := s.queue ++ [s.submitted.length],
                 submitted := s.submitted ++ [s.submitted.length],
                 notified := s.notified + 1 }
  | execute (s : PoolState) (id : Nat) (rest : List Nat) :
      0 < s.active → s.queue = id :: rest →
      PoolStep n pl s
        { s with queue := rest,
                 executed := s.executed ++ [id],
                 handles := fun j => if j = id then some (pl id) else s.handles j }
  | setStop (s : PoolState) :
      s.stopped = false →
      PoolStep n pl s { s with stopped := true, preStop := s.submitted }
  | exitWorker (s : PoolState) :
      0 < s.active → s.stopped = true → s.queue = [] →
      PoolStep n pl s { s with active := s.active - 1 }

/-- The pool state right after `ThreadPool(n)` returns: `n` live workers,
empty queue, `stop = false`, nothing submitted. -/
def initPool (n : Nat) : PoolState :=
  ⟨[], false, n, [], [], [], 0, fun _ => none⟩

/-- States the pool can be in at some point of an execution. -/
def PoolReachable (n : Nat) (pl : Nat → Except String Int)
    (s : PoolState) : Prop :=
  Relation.ReflTransGen (PoolStep n pl) (initPool n) s

/-- The inductive invariant of the pool. -/
def PoolInv (n : Nat) (pl : Nat → Except String Int) (s : PoolState) : Prop :=
  s.active ≤ n ∧
  (s.stopped = false → s.active = n) ∧
  s.submitted = s.executed ++ s.queue ∧
  (s.stopped = true → s.preStop <+: s.submitted) ∧
  (s.active < n → s.preStop <+: s.executed) ∧
  (∀ id ∈ s.executed, s.handles id = some (pl id))

theorem poolInv_init (n : Nat) (pl : Nat → Except String Int) :
    PoolInv n pl (initPool n) := by
  refine ⟨Nat.le_refl n, fun _ => rfl, rfl, ?_, ?_, ?_⟩
  · intro h; cases h
  · intro h; exact absurd h (Nat.lt_irrefl n)
  · intro id h; cases h

theorem poolInv_step {n : Nat} {pl : Nat → Except String Int}
    {s s' : PoolState} (hinv : PoolInv n pl s) (hstep : PoolStep n pl s s') :
    PoolInv n pl s' := by
  obtain ⟨h1, h2, h3, h4, h5, h6⟩ := hinv
  cases hstep with
  | submit =>
      refine ⟨h1, h2, ?_, ?_, h5, h6⟩
      · dsimp only
        rw [h3, List.append_assoc]
      · dsimp only
        intro hst
        exact (h4 hst).trans (List.prefix_append _ _)
  | execute id rest hact hq =>
      refine ⟨h1, h2, ?_, h4, ?_, ?_⟩
      · dsimp only
        rw [h3, hq]
        simp
      · dsimp only
        intro hlt
        exact (h5 hlt).trans (List.prefix_append _ _)
      · dsimp only
        intro j hj
        rcases List.mem_append.mp hj with hj1 | hj2
        · by_cases hje : j = id
          · subst hje; simp
          · simp only [if_neg hje]
            exact h6 j hj1
        · have hje : j = id := List.mem_singleton.mp hj2
          subst hje; simp
  | setStop hns =>
      refine ⟨h1, ?_, h3, ?_, ?_, h6⟩
      · dsimp only
        intro h
        exact Bool.noConfusion h
      · dsimp only
        intro _
        exact List.prefix_refl _
      · dsimp only
        intro hlt
        have ha := h2 hns
        omega
  | exitWorker hact hst hq =>
      refine ⟨?_, ?_, h3, h4, ?_, h6⟩
      · dsimp only
        exact Nat.le_trans (Nat.sub_le _ _) h1
      · dsimp only
        intro h
        rw [h] at hst
        exact Bool.noConfusion hst
      · dsimp only
        intro _
        have hpre : s.preStop <+: s.submitted := h4 hst
        rw [h3, hq, List.append_nil] at hpre
        exact hpre

theorem poolInv_reachable {n : Nat} {pl : Nat → Except String Int}
    {s : PoolState} (hr : PoolReachable n pl s) : PoolInv n pl s := by
  induction hr with
  | refl => exact poolInv_init n pl
  | tail _ hstep ih => exact poolInv_step ih hstep

/-! ## Claim theorems: thread-pool lifecycle, failures, queue discipline -/

/-- C3: graceful drain at pool end-of-life.  In every reachable state of a
pool with at least one worker in which destruction has completed (all
workers have exited their loops, `active = 0`): the stop signal is set,
every WorkItem submitted before shutdown began has been executed, and its
ResultHandle is resolved; moreover a step can only retire a worker when
the stop signal is set and the task queue is empty. -/
theorem pool_graceful_drain (n : Nat) (pl : Nat → Except String Int)
    (s : PoolState) (hn : 1 ≤ n) (hr : PoolReachable n pl s)
    (hjoined : s.active = 0) :
    s.stopped = true ∧
    s.preStop <+: s.executed ∧
    (∀ id ∈ s.preStop, s.handles id = some (pl id)) ∧
    (∀ u v : PoolState, PoolStep n pl u v → v.active < u.active →
        u.stopped = true ∧ u.queue = []) := by
  obtain ⟨h1, h2, h3, h4, h5, h6⟩ := poolInv_reachable hr
  have hstopped : s.stopped = true := by
    cases hstop : s.stopped with
    | false => have := h2 hstop; omega
    | true => rfl
  have hlt : s.active < n := by omega
  have hpre : s.preStop <+: s.executed := h5 hlt
  refine ⟨hstopped, hpre, ?_, ?_⟩
  · intro id hid
    exact h6 id (hpre.subset hid)
  · intro u v hstep hdec
    cases hstep with
    | submit => dsimp only at hdec; omega
    | execute id rest hact hq => dsimp only at hdec; omega
    | setStop hns => dsimp only at hdec; omega
    | exitWorker hact hst hq => exact ⟨hst, hq⟩

/-- Outcome assignment for the example traces: every item returns 0. -/
def okPl : Nat → Except String Int := fun _ => Except.ok 0

/-- Final state of the shutdown example trace:
submit item 0, execute it, set stop, worker exits. -/
def drainEnd : PoolState :=
  ⟨[], true, 0, [0], [0], [0], 1,
    fun j => if j = 0 then some (Except.ok 0) else none⟩

theorem pool_graceful_drain_witness :
    (1 : Nat) ≤ 1 ∧
    PoolReachable 1 okPl drainEnd ∧
    drainEnd.active = 0 ∧
    (drainEnd.stopped = true ∧
     drainEnd.preStop <+: drainEnd.executed ∧
     (∀ id ∈ drainEnd.preStop, drainEnd.handles id = some (okPl id)) ∧
     (∀ u v : PoolState, PoolStep 1 okPl u v → v.active < u.active →
        u.stopped = true ∧ u.queue = [])) := by
  have t1 : PoolStep 1 okPl (initPool 1)
      ⟨[0], false, 1, [0], [], [], 1, fun _ => none⟩ :=
    PoolStep.submit (initPool 1)
  have t2 : PoolStep 1 okPl ⟨[0], false, 1, [0], [], [], 1, fun _ => none⟩
      ⟨[], false, 1, [0], [0], [], 1,
        fun j => if j = 0 then some (Except.ok 0) else none⟩ :=
    PoolStep.execute _ 0 [] (by decide) rfl
  have t3 : PoolStep 1 okPl
      ⟨[], false, 1, [0], [0], [], 1,
        fun j => if j = 0 then some (Except.ok 0) else none⟩
      ⟨[], true, 1, [0], [0], [0], 1,
        fun j => if j = 0 then some (Except.ok 0) else none⟩ :=
    PoolStep.setStop _ rfl
  have t4 : PoolStep 1 okPl
      ⟨[], true, 1, [0], [0], [0], 1,
        fun j => if j = 0 then some (Except.ok 0) else none⟩
      drainEnd :=
    PoolStep.exitWorker _ (by decide) rfl rfl
  have hreach : PoolReachable 1 okPl drainEnd :=
    Relation.ReflTransGen.tail
      (Relation.ReflTransGen.tail
        (Relation.ReflTransGen.tail
          (Relation.ReflTransGen.tail Relation.ReflTransGen.refl t1) t2) t3) t4
  exact ⟨Nat.le_refl 1, hreach, rfl,
    pool_graceful_drain 1 okPl drainEnd (Nat.le_refl 1) hreach rfl⟩

/-- C4: execution failures are captured, not fatal.  In every reachable
pool state, every executed WorkItem's handle holds that item's outcome —
`Except.ok` for a normal result, `Except.error` for a raised failure, to
be re-raised when the caller awaits the handle — and a step that executes
an item (whatever its outcome) never changes the number of live workers
or the stop flag: a failure terminates neither a worker nor the pool. -/
theorem workitem_failure_captured (n : Nat) (pl : Nat → Except String Int)
    (s : PoolState) (hr : PoolReachable n pl s) :
    (∀ id ∈ s.executed, s.handles id = some (pl id)) ∧
    (∀ u v : PoolState, PoolStep n pl u v → v.executed ≠ u.executed →
        v.active = u.active ∧ v.stopped = u.stopped) := by
  obtain ⟨-, -, -, -, -, h6⟩ := poolInv_reachable hr
  refine ⟨h6, ?_⟩
  intro u v hstep hne
  cases hstep with
  | submit => exact ⟨rfl, rfl⟩
  | execute id rest hact hq => exact ⟨rfl, rfl⟩
  | setStop hns => exact absurd rfl hne
  | exitWorker hact hst hq => exact absurd rfl hne

/-- Outcome assignment where every item raises a failure. -/
def errPl : Nat → Except String Int := fun _ => Except.error "boom"

/-- Final state of the failure example trace: submit item 0 (which
raises), execute it; the worker survives and the error is in the handle. -/
def capEnd : PoolState :=
  ⟨[], false, 1, [0], [0], [], 1,
    fun j => if j = 0 then some (Except.error "boom") else none⟩

theorem workitem_failure_captured_witness :
    PoolReachable 1 errPl capEnd ∧
    ((∀ id ∈ capEnd.executed, capEnd.handles id = some (errPl id)) ∧
     (∀ u v : PoolState, PoolStep 1 errPl u v → v.executed ≠ u.executed →
        v.active = u.active ∧ v.stopped = u.stopped)) ∧
    capEnd.handles 0 = some (Except.error "boom") ∧
    capEnd.active = 1 := by
  have t1 : PoolStep 1 errPl (initPool 1)
      ⟨[0], false, 1, [0], [], [], 1, fun _ => none⟩ :=
    PoolStep.submit (initPool 1)
  have t2 : PoolStep 1 errPl ⟨[0], false, 1, [0], [], [], 1, fun _ => none⟩
      capEnd :=
    PoolStep.execute _ 0 [] (by decide) rfl
  have hreach : PoolReachable 1 errPl capEnd :=
    Relation.ReflTransGen.tail
      (Relation.ReflTransGen.tail Relation.ReflTransGen.refl t1) t2
  exact ⟨hreach, workitem_failure_captured 1 errPl capEnd hreach, rfl, rfl⟩

/-- C5: strict FIFO task queue.  A step that submits appends the new item
at the tail of the queue and issues exactly one `notify_one`; a step that
dequeues removes exactly the head and executes it; consequently, in every
reachable state the sequence of executed items is a prefix of the
sequence of submitted items — items are dequeued for execution in
exactly their submission order. -/
theorem task_queue_fifo (n : Nat) (pl : Nat → Except String Int)
    (s : PoolState) (hr : PoolReachable n pl s) :
    (∀ u v : PoolState, PoolStep n pl u v → v.submitted ≠ u.submitted →
        v.queue = u.queue ++ [u.submitted.length] ∧
        v.submitted = u.submitted ++ [u.submitted.length] ∧
        v.notified = u.notified + 1) ∧
    (∀ u v : PoolState, PoolStep n pl u v → v.executed ≠ u.executed →
        v.executed = u.executed ++ u.queue.take 1 ∧ v.queue = u.queue.drop 1) ∧
    s.executed <+: s.submitted := by
  obtain ⟨-, -, h3, -, -, -⟩ := poolInv_reachable hr
  refine ⟨?_, ?_, ?_⟩
  · intro u v hstep hne
    cases hstep with
    | submit => exact ⟨rfl, rfl, rfl⟩
    | execute id rest hact hq => exact absurd rfl hne
    | setStop hns => exact absurd rfl hne
    | exitWorker hact hst hq => exact absurd rfl hne
  · intro u v hstep hne
    cases hstep with
    | submit => exact absurd rfl hne
    | execute id rest hact hq =>
        constructor
        · dsimp only
          rw [hq]
          simp
        · dsimp only
          rw [hq]
          simp
    | setStop hns => exact absurd rfl hne
    | exitWorker hact hst hq => exact absurd rfl hne
  · rw [h3]
    exact List.prefix_append _ _

/-- Final state of the FIFO example trace: submit items 0 and 1, execute
one item; the executed item is item 0, the head. -/
def fifoEnd : PoolState :=
  ⟨[1], false, 1, [0, 1], [0], [], 2,
    fun j => if j = 0 then some (Except.ok 0) else none⟩

theorem task_queue_fifo_witness :
    PoolReachable 1 okPl fifoEnd ∧
    ((∀ u v : PoolState, PoolStep 1 okPl u v → v.submitted ≠ u.submitted →
        v.queue = u.queue ++ [u.submitted.length] ∧
        v.submitted = u.submitted ++ [u.submitted.length] ∧
        v.notified = u.notified + 1) ∧
     (∀ u v : PoolState, PoolStep 1 okPl u v → v.executed ≠ u.executed →
        v.executed = u.executed ++ u.queue.take 1 ∧ v.queue = u.queue.drop 1) ∧
     fifoEnd.executed <+: fifoEnd.submitted) := by
  have t1 : PoolStep 1 okPl (initPool 1)
      ⟨[0], false, 1, [0], [], [], 1, fun _ => none⟩ :=
    PoolStep.submit (initPool 1)
  have t2 : PoolStep 1 okPl ⟨[0], false, 1, [0], [], [], 1, fun _ => none⟩
      ⟨[0, 1], false, 1, [0, 1], [], [], 2, fun _ => none⟩ :=
    PoolStep.submit _
  have t3 : PoolStep 1 okPl ⟨[0, 1], false, 1, [0, 1], [], [], 2, fun _ => none⟩
      fifoEnd :=
    PoolStep.execute _ 0 [1] (by decide) rfl
  have hreach : PoolReachable 1 okPl fifoEnd :=
    Relation.ReflTransGen.tail
      (Relation.ReflTransGen.tail
        (Relation.ReflTransGen.tail Relation.ReflTransGen.refl t1) t2) t3
  exact ⟨hreach, task_queue_fifo 1 okPl fifoEnd hreach⟩

/-! ## CLI validation (`main`, lines 161-200)

The argument handling of `main` on top of `zen::cmd_args` (the kaizen
library, not part of this repository): `is_present(flag)` checks whether
the flag occurs among the arguments, `get_options(flag)` yields the value
tokens following the flag.  `std::stoi` parses an optional sign followed
by digits and throws (caught: `return 1`) when there are none.  Every
error path prints a message to `std::cerr` and returns exit status 1;
out-of-range accesses on an empty option vector are not modelled (the
inputs considered all carry a value after each flag). -/

/-- String equality, computed on the character lists. -/
def strEq (a b : String) : Bool := a.data == b.data

/-- Does the token look like a flag (start with `-`)? -/
def startsWithDash (t : String) : Bool :=
  match t.data with
  | [] => false
  | c :: _ => c == '-'

def isPresent (args : List String) (flag : String) : Bool :=
  args.any (fun a => strEq a flag)

def getOptions (args : List String) (flag : String) : List String :=
  ((args.dropWhile (fun a => !strEq a flag)).drop 1).takeWhile
    (fun t => !startsWithDash t)

/-- The value of a non-empty digit prefix; `none` when there are no
digits. -/
def digitsVal (l : List Char) : Option Int :=
  let ds := l.takeWhile Char.isDigit
  if ds.isEmpty then none
  else some (ds.foldl (fun acc c => acc * 10 + ((c.toNat : Int) - 48)) 0)

/-- `std::stoi`: optional sign, then a non-empty digit prefix;
`none` models the thrown exception. -/
def stoiOption (s : String) : Option Int :=
  match s.data with
  | '-' :: rest => (digitsVal rest).map (fun v => -v)
  | '+' :: rest => digitsVal rest
  | l => digitsVal l

/-- `std::getline(ss, token, ',')`: split the characters at commas. -/
def splitCommaAux : List Char → List Char → List (List Char)
  | [], acc => [acc.reverse]
  | c :: rest, acc =>
      if c == ',' then acc.reverse :: splitCommaAux rest []
      else splitCommaAux rest (c :: acc)

/-- `parseThreadCounts` (lines 130-142): split on commas, parse each
token with `stoi`, silently skipping tokens that fail to parse. -/
def parseThreadCounts (s : String) : List Int :=
  (splitCommaAux s.data []).filterMap
    (fun tok => stoiOption (String.mk tok))

inductive CliError where
  | usage
  | parseFailure
  | noValidThreadCounts
deriving DecidableEq

/-- Every CLI error path of `main` returns exit status 1. -/
def CliError.exitCode : CliError → Nat := fun _ => 1

structure Config where
  threadOption : String
  arraySize : Int
  method : String
  runs : Int
  warmup : Int
  dist : String
  threadCounts : List Int
deriving DecidableEq

/-- The `try` block of `main` (lines 179-200) together with the
thread-count check (lines 196-200). -/
def cliParseOptions (args : List String) : Except CliError Config := do
  let threadOption := (getOptions args "--threads").headD ""
  let arraySize ← match stoiOption ((getOptions args "--size").headD "") with
    | some v => pure v
    | none => throw CliError.parseFailure
  let method := if isPresent args "--method"
    then (getOptions args "--method").headD "locked" else "locked"
  let runs ← if isPresent args "--runs" then
      match stoiOption ((getOptions args "--runs").headD "") with
      | some v => pure v
      | none => throw CliError.parseFailure
    else pure (5 : Int)
  let warmup ← if isPresent args "--warmup" then
      match stoiOption ((getOptions args "--warmup").headD "") with
      | some v => pure v
      | none => throw CliError.parseFailure
    else pure (2 : Int)
  let dist := if isPresent args "--dist"
    then (getOptions args "--dist").headD "rand" else "rand"
  let threadCounts := parseThreadCounts threadOption
  if threadCounts.isEmpty then
    throw CliError.noValidThreadCounts
  pure ⟨threadOption, arraySize, method, runs, warmup, dist, threadCounts⟩

/-- The argument validation prefix of `main` (lines 161-200): `Except.error`
models an early `return 1` with a message on `std::cerr`; `Except.ok`
means the program proceeds to fill the array and run the benchmark. -/
def cliParse (args : List String) : Except CliError Config :=
  if !(isPresent args "--size") || !(isPresent args "--threads") then
    Except.error CliError.usage
  else
    cliParseOptions args

/-! ## Claim theorems: CLI validation -/

/-- C6 counterexample: an invocation whose `--size` and `--threads`
values are both non-positive (`0`) is **not** rejected: `cliParse`
succeeds, so the program proceeds to fill the array and run the
benchmark instead of terminating with a usage error. -/
theorem cli_nonpositive_accepted :
    cliParse ["./main", "--threads", "0", "--size", "0"]
      = Except.ok ⟨"0", 0, "locked", 5, 2, "rand", [0]⟩ := rfl

/-- C6 (amended): an invocation missing a required flag (`--size` or
`--threads`) terminates immediately with the usage message on the error
stream and exit status 1; non-positive size and thread-count values,
however, are not validated and do not cause termination. -/
theorem cli_missing_flag_rejected (args : List String)
    (h : isPresent args "--size" = false ∨ isPresent args "--threads" = false) :
    cliParse args = Except.error CliError.usage ∧
    CliError.usage.exitCode = 1 ∧
    cliParse ["./main", "--threads", "0", "--size", "0"]
      = Except.ok ⟨"0", 0, "locked", 5, 2, "rand", [0]⟩ := by
  refine ⟨?_, rfl, rfl⟩
  unfold cliParse
  rcases h with h | h <;> simp [h]

theorem cli_missing_flag_rejected_witness :
    (isPresent ["./main", "--size", "100"] "--size" = false ∨
     isPresent ["./main", "--size", "100"] "--threads" = false) ∧
    (cliParse ["./main", "--size", "100"] = Except.error CliError.usage ∧
     CliError.usage.exitCode = 1 ∧
     cliParse ["./main", "--threads", "0", "--size", "0"]
       = Except.ok ⟨"0", 0, "locked", 5, 2, "rand", [0]⟩) :=
  ⟨Or.inr (by decide),
   cli_missing_flag_rejected ["./main", "--size", "100"] (Or.inr (by decide))⟩

/-! ## CSV-row emission (`main`, lines 216-316)

For each configured thread count `n` and each timed run `run`, `main`
appends one CSV row
`method, (method=="parallel" ? 0 : n), array_size, run+1, sum, elapsed`
(line 313-314).  Wall-clock time is not modelled; the sum column is
parametrized by the per-run result `sumResult n run`. -/

structure CsvRow where
  method : String
  threads : Int
  arraySize : Int
  run : Nat
  sum : Int
deriving DecidableEq

/-- The rows appended to `results.csv`, in emission order. -/
def csvRows (method : String) (threadCounts : List Int) (runs : Nat)
    (arraySize : Int) (sumResult : Int → Nat → Int) : List CsvRow :=
  threadCounts.flatMap (fun n =>
    (List.range runs).map (fun run =>
      ⟨method, if method = "parallel" then 0 else n, arraySize, run + 1,
       sumResult n run⟩))

theorem csvRows_threads_map (method : String) (tcs : List Int) (runs : Nat)
    (size : Int) (f : Int → Nat → Int) :
    (csvRows method tcs runs size f).map CsvRow.threads
      = tcs.flatMap
          (fun n => List.replicate runs (if method = "parallel" then 0 else n)) := by
  induction tcs with
  | nil => rfl
  | cons n rest ih =>
      unfold csvRows at ih ⊢
      rw [List.flatMap_cons, List.flatMap_cons, List.map_append, ih,
        List.map_map]
      congr 1
      have : (CsvRow.threads ∘ fun run =>
          (⟨method, if method = "parallel" then 0 else n, size, run + 1,
            f n run⟩ : CsvRow))
          = fun _ => (if method = "parallel" then 0 else n) := rfl
      rw [this, List.map_const', List.length_range]

theorem csvRows_length (method : String) (tcs : List Int) (runs : Nat)
    (size : Int) (f : Int → Nat → Int) :
    (csvRows method tcs runs size f).length = tcs.length * runs := by
  induction tcs with
  | nil => simp [csvRows]
  | cons n rest ih =>
      unfold csvRows at ih ⊢
      rw [List.flatMap_cons, List.length_append, ih, List.length_map,
        List.length_range, List.length_cons, Nat.succ_mul, Nat.add_comm]

/-- C10: every CSV row of a timed run with method `"parallel"` stores `0`
in the thread-count column regardless of the configured thread counts,
while any other method stores the configured thread count of its outer
loop iteration; and for every method one row is emitted per configured
thread count per run, so the parallel method's runs are repeated once per
entry of the thread-count list. -/
theorem csv_parallel_zero_thread_column (method : String) (tcs : List Int)
    (runs : Nat) (size : Int) (f g : Int → Nat → Int)
    (hm : method ≠ "parallel") :
    (csvRows "parallel" tcs runs size f).map CsvRow.threads
        = tcs.flatMap (fun _ => List.replicate runs 0) ∧
    (csvRows method tcs runs size g).map CsvRow.threads
        = tcs.flatMap (fun n => List.replicate runs n) ∧
    (csvRows "parallel" tcs runs size f).length = tcs.length * runs ∧
    (csvRows method tcs runs size g).length = tcs.length * runs := by
  refine ⟨?_, ?_, csvRows_length _ _ _ _ _, csvRows_length _ _ _ _ _⟩
  · rw [csvRows_threads_map]
    simp
  · rw [csvRows_threads_map]
    simp [hm]

theorem csv_parallel_zero_thread_column_witness :
    ("locked" : String) ≠ "parallel" ∧
    ((csvRows "parallel" [1, 2] 2 8 (fun _ _ => 36)).map CsvRow.threads
        = ([1, 2] : List Int).flatMap (fun _ => List.replicate 2 (0 : Int)) ∧
     (csvRows "locked" [1, 2] 2 8 (fun _ _ => 36)).map CsvRow.threads
        = ([1, 2] : List Int).flatMap (fun n => List.replicate 2 n) ∧
     (csvRows "parallel" [1, 2] 2 8 (fun _ _ => 36)).length = 2 * 2 ∧
     (csvRows "locked" [1, 2] 2 8 (fun _ _ => 36)).length = 2 * 2) :=
  ⟨by decide,
   csv_parallel_zero_thread_column "locked" [1, 2] 2 8
     (fun _ _ => 36) (fun _ _ => 36) (by decide)⟩
